import Mathlib

/-!
Verification development for the pre-flight sanitization scanner
(src/scripts/preflight.py).  The script walks a directory tree from the
current directory, prunes ignored directory names before descending, reads
each file whose name ends with an allowed extension (text mode, UTF-8 with
errors='ignore'), flags contents matching a credential regular expression
and contents containing configured secret-sauce keywords, counts the
findings in `issues_found`, and finally prints a success or failure summary.

The embedding below models:
  - the configuration constants (SECRET_KEYWORDS, EXTENSIONS, IGNORE_DIRS);
  - the compiled regular expression
      (api[_-]?key|secret|password|auth[_-]?token|private[_-]?key|access[_-]?token)
      followed by zero or more spaces, an equal sign, zero or more spaces, a
      quote character (single or double, independently), ten or more
      characters from [a-zA-Z0-9_-], and a quote character, case-insensitive
      in the Unicode-aware sense of re.IGNORECASE (modelled exactly for the
      pattern's alphabet: besides A-Z, the code points U+0130, U+0131,
      U+017F and U+212A fold into i, s and k, and the last four also count
      as body characters);
  - Python's `word in content` substring test;
  - text-mode reading: UTF-8 decoding with the errors='ignore' handler
    (undecodable byte sequences are dropped), where opening a file can fail
    (e.g. permission denied) and such a failure is not caught anywhere;
  - os.walk('.') in top-down order with in-place pruning of ignored
    directory names before descent;
  - the scan loop, its running `issues_found` counter, the per-finding
    output lines and the final summary.
-/

/-- Keywords flagged as proprietary logic, from the SECRET_KEYWORDS list. -/
def SECRET_KEYWORDS : List String := ["proprietary_algo", "internal_ip", "dev_backdoor"]

/-- File extensions eligible for scanning, from the EXTENSIONS tuple. -/
def EXTENSIONS : List String := [".js", ".ts", ".py", ".jsx", ".tsx", ".env", ".json"]

/-- Directory basenames pruned from the traversal, from the IGNORE_DIRS list. -/
def IGNORE_DIRS : List String := ["node_modules", ".git", "dist", "build", "_archive"]

/-- Case folding of one content character against the pattern's literal
letters, modelling Python's Unicode-aware re.IGNORECASE.  The regex engine
matches a content character c against a lower-case pattern letter l when
the Unicode simple lower-case of c equals l, or when c lies in one of the
compiler's extra equivalence classes (i with dotless i, s with long s).
The pattern's letters are all ASCII, and the only Unicode code points
whose simple lower-case is an ASCII letter are A-Z, U+0130 (capital I with
dot above, lowering to i) and U+212A (Kelvin sign, lowering to k); the
equivalence classes further identify U+0131 (dotless i) with i and U+017F
(long s) with s.  Folding by this function and comparing with the pattern
letter is therefore exactly the engine's test for every letter of this
pattern; every other character folds to itself, never to an ASCII letter. -/
def lowerChar (c : Char) : Char :=
  if 'A' ≤ c ∧ c ≤ 'Z' then Char.ofNat (c.toNat + 32)
  else if c = Char.ofNat 0x0130 ∨ c = Char.ofNat 0x0131 then 'i'
  else if c = Char.ofNat 0x017F then 's'
  else if c = Char.ofNat 0x212A then 'k'
  else c

/-- Membership in the character class [a-zA-Z0-9_-] of the credential
pattern's quoted value, under Python's Unicode-aware re.IGNORECASE.  The
engine lowers the content character and tests it against the class closed
under the compiler's case fixes: the closure of [a-zA-Z0-9_-] adds dotless
i (U+0131, equivalent to i) and long s (U+017F, equivalent to s), and the
characters whose simple lower-case lands in the closure add U+0130
(capital I with dot above) and U+212A (Kelvin sign); digits, underscore
and hyphen are the lower-case image of nothing but themselves. -/
def isBodyChar (c : Char) : Bool :=
  decide ('a' ≤ c ∧ c ≤ 'z') || decide ('A' ≤ c ∧ c ≤ 'Z') ||
    decide ('0' ≤ c ∧ c ≤ '9') || c == '_' || c == '-' ||
    c == Char.ofNat 0x0130 || c == Char.ofNat 0x0131 ||
    c == Char.ofNat 0x017F || c == Char.ofNat 0x212A

/-- Membership in the quote character class of the credential pattern: a
single quote or a double quote. -/
def isQuoteChar (c : Char) : Bool := c == Char.ofNat 39 || c == '"'

/-- The strings generated by the alternation
(api[_-]?key|secret|password|auth[_-]?token|private[_-]?key|access[_-]?token),
written lower-case. -/
def credNames : List (List Char) :=
  ["apikey".data, "api_key".data, "api-key".data, "secret".data, "password".data,
   "authtoken".data, "auth_token".data, "auth-token".data,
   "privatekey".data, "private_key".data, "private-key".data,
   "accesstoken".data, "access_token".data, "access-token".data]

/-- Matching of the part of the credential pattern after the alternation:
zero or more spaces, an equal sign, zero or more spaces, a quote, ten or
more body characters, a quote.  The greedy pieces are deterministic here:
an equal sign and a quote are not spaces, and a quote is not a body
character, so taking maximal runs is equivalent to the regular
expression's backtracking search. -/
def credEatClose : List Char → Bool
  | [] => false
  | q2 :: _ => isQuoteChar q2

/-- After the opening quote: take the maximal run of body characters,
require at least ten of them, and require a quote character right after. -/
def credEatQuote : List Char → Bool
  | [] => false
  | q :: t2 =>
    isQuoteChar q && decide (10 ≤ (t2.takeWhile isBodyChar).length) &&
      credEatClose (t2.dropWhile isBodyChar)

/-- After the spaces following the name: require an equal sign, skip the
spaces after it, and hand over to the quoted-value matcher. -/
def credEatEq : List Char → Bool
  | [] => false
  | x :: t1 => x == '=' && credEatQuote (t1.dropWhile (fun c => c == ' '))

/-- See the description above `credEatClose`. -/
def matchTail (t : List Char) : Bool :=
  credEatEq (t.dropWhile (fun c => c == ' '))

/-- Does the text start with the given lower-case credential name,
case-insensitively? -/
def nameHitAt (nm t : List Char) : Bool := nm.isPrefixOf (t.map lowerChar)

/-- Does a credential-pattern match start at the head of the text? -/
def matchHere (t : List Char) : Bool :=
  credNames.any (fun nm => nameHitAt nm t && matchTail (t.drop nm.length))

/-- Embedding of `secret_pattern.search(content)`: does the credential
pattern match anywhere in the content? -/
def credSearch (s : List Char) : Bool := s.tails.any matchHere

/-- Embedding of Python's `needle in hay` substring test. -/
def listContains (needle hay : List Char) : Bool :=
  hay.tails.any (fun t => needle.isPrefixOf t)

/-- One finding line printed during the scan. -/
inductive Line where
  | secretWarning (path : String)
  | keywordExposed (path : String) (word : String)
deriving DecidableEq

/-- Is this line a credential-pattern warning? -/
def Line.isSecret : Line → Bool
  | .secretWarning _ => true
  | .keywordExposed _ _ => false

/-- Is this line a keyword finding? -/
def Line.isKeyword : Line → Bool
  | .secretWarning _ => false
  | .keywordExposed _ _ => true

/-- A single-quote character as a string (used by the keyword line format). -/
def singleQuote : String := String.singleton (Char.ofNat 39)

/-- The exact text of a finding line. -/
def renderLine : Line → String
  | .secretWarning p => "WARNING: POTENTIAL SECRET FOUND: " ++ p
  | .keywordExposed p w =>
      "PROPRIETARY LOGIC EXPOSED: " ++ p ++ " (Found " ++ singleQuote ++ w ++ singleQuote ++ ")"

/-- The final summary printed after the traversal. -/
inductive Summary where
  | success
  | failed (issues : Nat)
deriving DecidableEq

/-- The exact text of the summary line. -/
def renderSummary : Summary → String
  | .success => "SUCCESS: Code looks clean. Ready for Sandbox deployment."
  | .failed n => "FAILED: " ++ toString n ++ " critical issues to fix before Sandbox."

/-- The summary chosen from the final counter: failure when positive,
success otherwise. -/
def summaryOf (n : Nat) : Summary := if n > 0 then .failed n else .success

/-- Is the byte a UTF-8 continuation byte (0x80 to 0xBF)? -/
def isContByte (b : Nat) : Bool := decide (0x80 ≤ b ∧ b ≤ 0xBF)

/-- Valid range of the second byte of a three-byte UTF-8 sequence, which
depends on the lead byte (excluding overlong encodings and surrogates). -/
def byte2ok3 (b b1 : Nat) : Bool :=
  if b == 0xE0 then decide (0xA0 ≤ b1 ∧ b1 ≤ 0xBF)
  else if b == 0xED then decide (0x80 ≤ b1 ∧ b1 ≤ 0x9F)
  else isContByte b1

/-- Valid range of the second byte of a four-byte UTF-8 sequence, which
depends on the lead byte (excluding overlong encodings and values past
U+10FFFF). -/
def byte2ok4 (b b1 : Nat) : Bool :=
  if b == 0xF0 then decide (0x90 ≤ b1 ∧ b1 ≤ 0xBF)
  else if b == 0xF4 then decide (0x80 ≤ b1 ∧ b1 ≤ 0x8F)
  else isContByte b1

/-- One step of UTF-8 decoding at lead byte `b` with following bytes `bs`:
either the decoded code point together with the number of continuation
bytes consumed, or `none` (a decode error) together with the number of
additional bytes belonging to the maximal subpart of an ill-formed
sequence, as skipped by Python's error handlers. -/
def utf8Step (b : Nat) (bs : List Nat) : Option Nat × Nat :=
  if b ≤ 0x7F then (some b, 0)
  else if 0xC2 ≤ b ∧ b ≤ 0xDF then
    match bs with
    | b1 :: _ =>
      if isContByte b1 then (some ((b - 0xC0) * 0x40 + (b1 - 0x80)), 1) else (none, 0)
    | [] => (none, 0)
  else if 0xE0 ≤ b ∧ b ≤ 0xEF then
    match bs with
    | b1 :: bs1 =>
      if byte2ok3 b b1 then
        match bs1 with
        | b2 :: _ =>
          if isContByte b2 then
            (some ((b - 0xE0) * 0x1000 + (b1 - 0x80) * 0x40 + (b2 - 0x80)), 2)
          else (none, 1)
        | [] => (none, 1)
      else (none, 0)
    | [] => (none, 0)
  else if 0xF0 ≤ b ∧ b ≤ 0xF4 then
    match bs with
    | b1 :: bs1 =>
      if byte2ok4 b b1 then
        match bs1 with
        | b2 :: bs2 =>
          if isContByte b2 then
            match bs2 with
            | b3 :: _ =>
              if isContByte b3 then
                (some ((b - 0xF0) * 0x40000 + (b1 - 0x80) * 0x1000 + (b2 - 0x80) * 0x40 + (b3 - 0x80)), 3)
              else (none, 2)
            | [] => (none, 2)
          else (none, 1)
        | [] => (none, 1)
      else (none, 0)
    | [] => (none, 0)
  else (none, 0)

/-- UTF-8 decoding driver: each decoded code point is emitted; each decode
error emits `repl` and skips the ill-formed subpart.  The fuel argument is
instantiated with the length of the byte list, which suffices because every
step consumes at least the lead byte. -/
def utf8DecodeAux (repl : List Char) : Nat → List Nat → List Char
  | 0, _ => []
  | _ + 1, [] => []
  | fuel + 1, b :: bs =>
    let st := utf8Step b bs
    (match st.1 with
     | some cp => [Char.ofNat cp]
     | none => repl) ++ utf8DecodeAux repl fuel (bs.drop st.2)

/-- UTF-8 decoding of a byte list, emitting `repl` at each decode error. -/
def utf8DecodeWith (repl : List Char) (bs : List Nat) : List Char :=
  utf8DecodeAux repl bs.length bs

/-- Embedding of the script's file reading mode, errors='ignore': decode
errors emit nothing, so ill-formed byte sequences are dropped. -/
def utf8DecodeIgnore (bs : List Nat) : List Char := utf8DecodeWith [] bs

/-- The Unicode replacement character U+FFFD. -/
def replacementChar : Char := Char.ofNat 0xFFFD

/-- Modelled from the spec: the spec (sections 4.2 and 7) describes file
reading as substituting (replacing) undecodable byte sequences rather than
raising; this is UTF-8 decoding with the errors='replace' handler, which
emits U+FFFD at each decode error.  The script itself uses errors='ignore';
this definition renders the spec's wording for comparison. -/
def utf8DecodeReplaceSpec (bs : List Nat) : List Char :=
  utf8DecodeWith [replacementChar] bs

/-- Token stream of UTF-8 decoding: `some c` for each decoded character,
`none` for each maximal ill-formed subpart. -/
def utf8TokensAux : Nat → List Nat → List (Option Char)
  | 0, _ => []
  | _ + 1, [] => []
  | fuel + 1, b :: bs =>
    let st := utf8Step b bs
    (st.1.map (fun cp => Char.ofNat cp)) :: utf8TokensAux fuel (bs.drop st.2)

/-- Token stream of UTF-8 decoding of a byte list. -/
def utf8Tokens (bs : List Nat) : List (Option Char) := utf8TokensAux bs.length bs

/-- Contents of a file on disk: its raw bytes, or unreadability (opening or
reading it raises, e.g. permission denied). -/
inductive FileData where
  | readable (bytes : List Nat)
  | unreadable
deriving DecidableEq

/-- Embedding of `open(path, 'r', errors='ignore')` followed by `f.read()`:
an unreadable file raises (modelled as `Except.error`); a readable file
yields its text, decoded with undecodable sequences dropped.  Decoding
itself never fails. -/
def readFileData : FileData → Except Unit (List Char)
  | .readable bs => .ok (utf8DecodeIgnore bs)
  | .unreadable => .error ()

/-- A directory tree entry: a file with its data, or a directory with its
children (listed in directory order). -/
inductive Entry where
  | file (name : String) (data : FileData)
  | dir (name : String) (children : List Entry)

/-- Embedding of `file.endswith(EXTENSIONS)`: does the file name end with
one of the allowed extensions (case-sensitive)? -/
def hasAllowedExt (nm : String) : Bool :=
  EXTENSIONS.any (fun e => e.data.isSuffixOf nm.data)

/-- Embedding of `os.path.join` over the directory components accumulated
by the walk (POSIX separator). -/
def pathString (stem : List String) (nm : String) : String :=
  String.intercalate "/" (stem ++ [nm])

/-- The files of one directory level, as yielded in the `files` component
of an os.walk triple: each file child with the directory's path components. -/
def filesOf (stem : List String) (es : List Entry) : List (List String × String × FileData) :=
  es.filterMap (fun e =>
    match e with
    | .file n d => some (stem, n, d)
    | .dir _ _ => none)

/-- Recursion of os.walk below one directory level: for each subdirectory,
in order, skip it entirely if its name is in IGNORE_DIRS (the in-place
pruning `dirs[:] = [d for d in dirs if d not in IGNORE_DIRS]` before
descent), otherwise yield its files and then recurse. -/
def walkAux : List String → List Entry → List (List String × String × FileData)
  | _, [] => []
  | stem, .file _ _ :: rest => walkAux stem rest
  | stem, .dir n cs :: rest =>
      (if n ∈ IGNORE_DIRS then []
       else filesOf (stem ++ [n]) cs ++ walkAux (stem ++ [n]) cs) ++ walkAux stem rest

/-- Embedding of `os.walk` in top-down order with pruning: the files of the
root directory, then the files of each visited subtree. -/
def osWalk (stem : List String) (es : List Entry) : List (List String × String × FileData) :=
  filesOf stem es ++ walkAux stem es

/-- One iteration of the keyword loop `for word in SECRET_KEYWORDS`: if the
word occurs in the content, print one keyword line and increment the
counter. -/
def keywordStep (path : String) (content : List Char) (acc : List Line × Nat)
    (w : String) : List Line × Nat :=
  if listContains w.data content then (acc.1 ++ [Line.keywordExposed path w], acc.2 + 1)
  else acc

/-- Processing of one opened file: the credential check prints one warning
line and increments the counter if the pattern matches anywhere; then,
unless the file is named preflight.py, the keyword loop runs over the
content.  Returns the lines printed for this file and the updated counter. -/
def processFile (path nm : String) (content : List Char) (issues : Nat) :
    List Line × Nat :=
  let credPart : List Line × Nat :=
    if credSearch content then ([Line.secretWarning path], issues + 1) else ([], issues)
  let kwPart : List Line × Nat :=
    if nm ≠ "preflight.py" then
      SECRET_KEYWORDS.foldl (keywordStep path content) ([], credPart.2)
    else ([], credPart.2)
  (credPart.1 ++ kwPart.1, kwPart.2)

/-- The scan loop over the walked files: files whose name does not end in
an allowed extension are skipped without being opened; eligible files are
opened (which can raise, aborting the whole scan) and processed. -/
def scanFiles : List (List String × String × FileData) → Nat →
    Except Unit (List Line × Nat)
  | [], issues => .ok ([], issues)
  | (stem, nm, d) :: rest, issues =>
    if hasAllowedExt nm then
      match readFileData d with
      | .error e => .error e
      | .ok content =>
        let r := processFile (pathString stem nm) nm content issues
        match scanFiles rest r.2 with
        | .error e => .error e
        | .ok (ls, final) => .ok (r.1 ++ ls, final)
    else scanFiles rest issues

/-- Embedding of `check_for_secrets()` run over a tree rooted at the current
directory: walk, scan, and (when no exception escapes) the printed finding
lines, the final counter, and the summary computed from it. -/
def runScan (es : List Entry) : Except Unit (List Line × Nat × Summary) :=
  match scanFiles (osWalk ["."] es) 0 with
  | .error e => .error e
  | .ok (ls, n) => .ok (ls, n, summaryOf n)

/-- Modelled from the spec: the spec (section 3) describes the credential
pattern as requiring optional whitespace around the equal sign and a
closing quote matching the opening quote.  This is the tail matcher those
words denote; the script's regular expression instead allows only spaces
and lets the closing quote differ from the opening one. -/
def specMatchTail (t : List Char) : Bool :=
  match t.dropWhile (fun c => c.isWhitespace) with
  | x :: t1 =>
    x == '=' &&
      (match t1.dropWhile (fun c => c.isWhitespace) with
       | q :: t2 =>
         isQuoteChar q && decide (10 ≤ (t2.takeWhile isBodyChar).length) &&
           (match t2.dropWhile isBodyChar with
            | q2 :: _ => q2 == q
            | [] => false)
       | [] => false)
  | [] => false

/-- Modelled from the spec: the whole-content search of the credential
pattern as the spec's words describe it (matching closing quote, arbitrary
whitespace around the equal sign). -/
def specCredSearch (s : List Char) : Bool :=
  s.tails.any (fun t => credNames.any (fun nm => nameHitAt nm t && specMatchTail (t.drop nm.length)))

/-- Declarative characterization of the strings on which the script's
credential pattern fires: some substring consists of a listed credential
name (case-insensitive in the Unicode-aware sense of re.IGNORECASE, via
`lowerChar`), zero or more spaces, an equal sign, zero or more spaces, a
quote, ten or more characters of the IGNORECASE closure of [a-zA-Z0-9_-],
and a quote (either kind, independent of the opening one). -/
def IsCredOccurrence (s : List Char) : Prop :=
  ∃ (pre occ nm body rest : List Char) (n1 n2 : Nat) (q1 q2 : Char),
    nm ∈ credNames ∧ occ.map lowerChar = nm ∧
    isQuoteChar q1 = true ∧ isQuoteChar q2 = true ∧
    (∀ c ∈ body, isBodyChar c = true) ∧ 10 ≤ body.length ∧
    s = pre ++ (occ ++ (List.replicate n1 ' ' ++ '=' ::
      (List.replicate n2 ' ' ++ q1 :: (body ++ q2 :: rest))))
/-- The credential-warning lines one file contributes. -/
def credLinesOf (path : String) (content : List Char) : List Line :=
  if credSearch content then [Line.secretWarning path] else []

/-- The keyword finding lines one file contributes: none for the scanner's
own file name, otherwise one line per configured keyword occurring in the
content, in configuration order. -/
def keywordLinesOf (path nm : String) (content : List Char) : List Line :=
  if nm = "preflight.py" then []
  else (SECRET_KEYWORDS.filter (fun w => listContains w.data content)).map
    (fun w => Line.keywordExposed path w)

lemma keywordFold_eq (path : String) (content : List Char) (ws : List String) :
    ∀ (ls : List Line) (i : Nat),
      ws.foldl (keywordStep path content) (ls, i) =
        (ls ++ (ws.filter (fun w => listContains w.data content)).map
            (fun w => Line.keywordExposed path w),
          i + (ws.filter (fun w => listContains w.data content)).length) := by
  induction ws with
  | nil => intro ls i; simp
  | cons w ws ih =>
    intro ls i
    simp only [List.foldl_cons, keywordStep]
    by_cases h : listContains w.data content = true
    · rw [if_pos h, ih]
      simp [h, List.filter_cons]
      omega
    · rw [if_neg h, ih]
      simp [h, List.filter_cons]

lemma processFile_eq (path nm : String) (content : List Char) (issues : Nat) :
    processFile path nm content issues =
      (credLinesOf path content ++ keywordLinesOf path nm content,
        issues + (credLinesOf path content).length + (keywordLinesOf path nm content).length) := by
  by_cases hnm : nm = "preflight.py"
  · by_cases hc : credSearch content = true <;>
      simp [processFile, credLinesOf, keywordLinesOf, hnm, hc]
  · by_cases hc : credSearch content = true <;>
      simp [processFile, credLinesOf, keywordLinesOf, hnm, hc, keywordFold_eq, Nat.add_assoc]

lemma processFile_counter (path nm : String) (content : List Char) (issues : Nat) :
    (processFile path nm content issues).2 =
      issues + (processFile path nm content issues).1.length := by
  rw [processFile_eq]
  simp [Nat.add_assoc]

lemma scanFiles_ok_counter :
    ∀ (l : List (List String × String × FileData)) (i : Nat) (ls : List Line) (j : Nat),
      scanFiles l i = Except.ok (ls, j) → j = i + ls.length := by
  intro l
  induction l with
  | nil =>
    intro i ls j h
    simp [scanFiles] at h
    rcases h with ⟨rfl, rfl⟩
    simp
  | cons r rest ih =>
    intro i ls j h
    obtain ⟨stem, nm, d⟩ := r
    simp only [scanFiles] at h
    by_cases he : hasAllowedExt nm = true
    · rw [if_pos he] at h
      cases hrd : readFileData d with
      | error e => simp only [hrd] at h; exact Except.noConfusion h
      | ok content =>
        simp only [hrd] at h
        cases hrec : scanFiles rest (processFile (pathString stem nm) nm content i).2 with
        | error e => simp only [hrec] at h; exact Except.noConfusion h
        | ok p =>
          obtain ⟨ls2, final⟩ := p
          simp only [hrec] at h
          simp only [Except.ok.injEq, Prod.mk.injEq] at h
          obtain ⟨hl, hj⟩ := h
          have hfin := ih _ _ _ hrec
          rw [processFile_counter] at hfin
          subst hl hj
          simp [List.length_append]
          omega
    · rw [if_neg he] at h
      exact ih _ _ _ h

/-- C1: for every scanned tree on which the scan completes, the final
counter equals the exact number of finding lines printed, and the summary
is the success message exactly when the counter is zero, otherwise the
failure message carrying that exact count. -/
theorem c1_issues_count_and_summary (es : List Entry) (ls : List Line) (n : Nat) (s : Summary)
    (h : runScan es = Except.ok (ls, n, s)) :
    n = ls.length ∧ (s = Summary.success ↔ n = 0) ∧ (0 < n → s = Summary.failed n) := by
  unfold runScan at h
  cases hscan : scanFiles (osWalk ["."] es) 0 with
  | error e => simp only [hscan] at h; exact Except.noConfusion h
  | ok p =>
    obtain ⟨ls0, n0⟩ := p
    simp only [hscan, Except.ok.injEq, Prod.mk.injEq] at h
    obtain ⟨rfl, rfl, rfl⟩ := h
    have hc := scanFiles_ok_counter _ _ _ _ hscan
    refine ⟨by omega, ?_, ?_⟩
    · unfold summaryOf
      by_cases hn : n0 > 0
      · simp only [hn, if_pos]
        constructor
        · intro hfs; exact Summary.noConfusion hfs
        · omega
      · simp only [hn, if_neg]
        constructor
        · intro _; omega
        · intro _; rfl
    · intro hpos
      unfold summaryOf
      simp [hpos]

theorem c1_witness :
    (1 : Nat) = [Line.keywordExposed "./a.py" "proprietary_algo"].length ∧
      (Summary.failed 1 = Summary.success ↔ (1 : Nat) = 0) ∧
      ((0 : Nat) < 1 → Summary.failed 1 = Summary.failed 1) :=
  c1_issues_count_and_summary
    [Entry.file "a.py" (FileData.readable ("proprietary_algo".data.map Char.toNat))]
    [Line.keywordExposed "./a.py" "proprietary_algo"] 1 (Summary.failed 1)
    (by
      simp [runScan, osWalk, walkAux, filesOf, scanFiles, hasAllowedExt, EXTENSIONS, readFileData]
      decide)

/-- C3: the credential check contributes exactly one warning line when the
pattern matches anywhere in the content and zero otherwise, never one per
occurrence; the counter advances by exactly the number of lines printed. -/
theorem c3_cred_single_finding (path nm : String) (content : List Char) (issues : Nat) :
    ((processFile path nm content issues).1.countP Line.isSecret
        = if credSearch content = true then 1 else 0) ∧
      (processFile path nm content issues).2
        = issues + (processFile path nm content issues).1.length := by
  constructor
  · rw [processFile_eq]
    simp only [List.countP_append]
    have h2 : (keywordLinesOf path nm content).countP Line.isSecret = 0 := by
      apply List.countP_eq_zero.mpr
      intro l hl
      unfold keywordLinesOf at hl
      split at hl
      · simp at hl
      · obtain ⟨w, hw, rfl⟩ := List.mem_map.mp hl
        simp [Line.isSecret]
    rw [h2]
    unfold credLinesOf
    by_cases hc : credSearch content = true <;> simp [hc, Line.isSecret]
  · exact processFile_counter path nm content issues

/-- C8: a file named preflight.py is exempt from the keyword check (no
keyword line, whatever the content) while the credential check still
applies to its content as usual. -/
theorem c8_self_exclusion_keyword_only (path : String) (content : List Char) (issues : Nat) :
    ((processFile path "preflight.py" content issues).1.countP Line.isKeyword = 0) ∧
      ((processFile path "preflight.py" content issues).1.countP Line.isSecret
        = if credSearch content = true then 1 else 0) := by
  constructor
  · rw [processFile_eq]
    simp only [List.countP_append]
    have h1 : (credLinesOf path content).countP Line.isKeyword = 0 := by
      unfold credLinesOf
      by_cases hc : credSearch content = true <;> simp [hc, Line.isKeyword]
    have h2 : (keywordLinesOf path "preflight.py" content).countP Line.isKeyword = 0 := by
      unfold keywordLinesOf
      simp
    omega
  · rw [processFile_eq]
    simp only [List.countP_append]
    have h2 : (keywordLinesOf path "preflight.py" content).countP Line.isSecret = 0 := by
      unfold keywordLinesOf
      simp
    rw [h2]
    unfold credLinesOf
    by_cases hc : credSearch content = true <;> simp [hc, Line.isSecret]

/-- C9: the content apiKey = "abcdef1234" triggers exactly one credential
finding, while cacheKey = "abcdef1234" (which contains no listed credential
name) triggers none. -/
theorem c9_apikey_yes_cachekey_no :
    ((processFile "./app.ts" "app.ts" ("apiKey = \"abcdef1234\"").data 0).1.countP
        Line.isSecret = 1) ∧
      ((processFile "./app.ts" "app.ts" ("cacheKey = \"abcdef1234\"").data 0).1.countP
        Line.isSecret = 0) := by
  decide

/-- C10: the credential pattern has no left word boundary: a listed name
occurring only as the suffix of a longer identifier, as in
mysecret = "abcdefghij", still produces a credential finding. -/
theorem c10_no_left_anchor :
    (processFile "./a.py" "a.py" ("mysecret = \"abcdefghij\"").data 0).1.countP
      Line.isSecret = 1 := by
  decide

lemma isPrefixOf_eq_true (a : List Char) :
    ∀ b : List Char, a.isPrefixOf b = true ↔ a <+: b := by
  induction a with
  | nil => intro b; simp [List.isPrefixOf]
  | cons x xs ih =>
    intro b
    cases b with
    | nil => simp [List.isPrefixOf]
    | cons y ys => simp [List.isPrefixOf, ih, List.cons_prefix_cons]

lemma listContains_iff (needle hay : List Char) :
    listContains needle hay = true ↔ needle <:+: hay := by
  unfold listContains
  rw [List.any_eq_true]
  constructor
  · rintro ⟨t, ht, hp⟩
    rw [List.mem_tails] at ht
    exact List.infix_iff_prefix_suffix.mpr ⟨t, (isPrefixOf_eq_true _ _).mp hp, ht⟩
  · intro h
    obtain ⟨t, hp, hs⟩ := List.infix_iff_prefix_suffix.mp h
    exact ⟨t, (List.mem_tails _ _).mpr hs, (isPrefixOf_eq_true _ _).mpr hp⟩

/-- C4: for a file not exempt by self-exclusion, the keyword lines it
contributes are exactly one line per configured keyword occurring as a
substring of the content, carrying that keyword, in SECRET_KEYWORDS order;
a keyword occurring several times still yields its single finding. -/
theorem c4_one_finding_per_keyword (path nm : String) (content : List Char) (issues : Nat)
    (h : nm ≠ "preflight.py") :
    (processFile path nm content issues).1.filter Line.isKeyword =
      (SECRET_KEYWORDS.filter (fun w => decide (w.data <:+: content))).map
        (fun w => Line.keywordExposed path w) := by
  rw [processFile_eq]
  rw [List.filter_append]
  have h1 : (credLinesOf path content).filter Line.isKeyword = [] := by
    unfold credLinesOf
    by_cases hc : credSearch content = true <;> simp [hc, Line.isKeyword]
  have h2 : (keywordLinesOf path nm content).filter Line.isKeyword
      = keywordLinesOf path nm content := by
    apply List.filter_eq_self.mpr
    intro l hl
    unfold keywordLinesOf at hl
    split at hl
    · simp at hl
    · obtain ⟨w, hw, rfl⟩ := List.mem_map.mp hl
      simp [Line.isKeyword]
  rw [h1, h2]
  unfold keywordLinesOf
  rw [if_neg h]
  simp only [List.nil_append]
  congr 1
  apply List.filter_congr
  intro w _
  rw [Bool.eq_iff_iff, decide_eq_true_eq]
  exact listContains_iff w.data content

theorem c4_witness :
    ("a.py" : String) ≠ "preflight.py" ∧
      (processFile "./a.py" "a.py"
          ("internal_ip internal_ip proprietary_algo").data 0).1.filter Line.isKeyword =
        [Line.keywordExposed "./a.py" "proprietary_algo",
          Line.keywordExposed "./a.py" "internal_ip"] :=
  ⟨by decide,
    (c4_one_finding_per_keyword "./a.py" "a.py"
        ("internal_ip internal_ip proprietary_algo").data 0 (by decide)).trans (by decide)⟩

lemma filesOf_stem (stem : List String) (es : List Entry) (r : List String × String × FileData)
    (h : r ∈ filesOf stem es) : r.1 = stem := by
  unfold filesOf at h
  obtain ⟨e, _, hr⟩ := List.mem_filterMap.mp h
  cases e with
  | file n d =>
    simp only [Option.some.injEq] at hr
    subst hr
    rfl
  | dir n cs => simp at hr

lemma walkAux_stems :
    ∀ (stem : List String) (es : List Entry) (r : List String × String × FileData),
      r ∈ walkAux stem es →
      ∃ t, r.1 = stem ++ t ∧ ∀ d ∈ t, d ∉ IGNORE_DIRS := by
  intro stem es
  induction stem, es using walkAux.induct with
  | case1 stem => intro r hr; rw [walkAux] at hr; simp at hr
  | case2 stem nm dat rest ih =>
    intro r hr
    rw [walkAux] at hr
    exact ih r hr
  | case3 stem n cs rest ih1 ih2 =>
    intro r hr
    rw [walkAux, List.mem_append] at hr
    cases hr with
    | inr h => exact ih2 r h
    | inl h =>
      by_cases hig : n ∈ IGNORE_DIRS
      · rw [if_pos hig] at h; simp at h
      · rw [if_neg hig, List.mem_append] at h
        cases h with
        | inl hf =>
          exact ⟨[n], by rw [filesOf_stem _ _ _ hf], by
            intro d hd
            rw [List.mem_singleton] at hd
            subst hd
            exact hig⟩
        | inr hw =>
          obtain ⟨t, h1, h2⟩ := ih1 r hw
          refine ⟨n :: t, by simp [h1], ?_⟩
          intro d hd
          rw [List.mem_cons] at hd
          cases hd with
          | inl hd => subst hd; exact hig
          | inr hd => exact h2 d hd

/-- C2: no file lying under a directory whose basename is in IGNORE_DIRS,
at any depth, is ever visited by the walk (hence never opened, read or
pattern-checked): every walked file's directory components below the root
avoid the ignored names; moreover an ignored directory is pruned before
descent, so the walk result does not depend on the contents of an ignored
directory's subtree at all. -/
theorem c2_pruning_sound :
    (∀ (stem : List String) (es : List Entry) (r : List String × String × FileData),
        r ∈ osWalk stem es →
        ∃ t, r.1 = stem ++ t ∧ ∀ d ∈ t, d ∉ IGNORE_DIRS) ∧
      (∀ (stem : List String) (n : String) (cs cs' rest : List Entry),
        n ∈ IGNORE_DIRS →
        osWalk stem (Entry.dir n cs :: rest) = osWalk stem (Entry.dir n cs' :: rest)) := by
  constructor
  · intro stem es r hr
    rw [osWalk, List.mem_append] at hr
    cases hr with
    | inl h => exact ⟨[], by simp [filesOf_stem stem es r h], by simp⟩
    | inr h => exact walkAux_stems stem es r h
  · intro stem n cs cs' rest hig
    rw [osWalk, osWalk]
    rw [walkAux, walkAux]
    rw [if_pos hig, if_pos hig]
    rfl

theorem c2_witness :
    (∃ t, ((["." , "sub"], "a.py", FileData.unreadable) :
        List String × String × FileData).1 = ["."] ++ t ∧ ∀ d ∈ t, d ∉ IGNORE_DIRS) ∧
      osWalk ["."] [Entry.dir "node_modules" []] =
        osWalk ["."] [Entry.dir "node_modules" [Entry.file "x.py" FileData.unreadable]] :=
  ⟨c2_pruning_sound.1 ["."] [Entry.dir "sub" [Entry.file "a.py" FileData.unreadable]]
      (["." , "sub"], "a.py", FileData.unreadable)
      (by simp [osWalk, walkAux, filesOf, IGNORE_DIRS]),
    c2_pruning_sound.2 ["."] "node_modules" [] [Entry.file "x.py" FileData.unreadable] []
      (by decide)⟩

lemma scanFiles_ok_of_readable :
    ∀ (l : List (List String × String × FileData)) (i : Nat),
      (∀ r ∈ l, hasAllowedExt r.2.1 = true → r.2.2 ≠ FileData.unreadable) →
      ∃ p, scanFiles l i = Except.ok p := by
  intro l
  induction l with
  | nil => intro i _; exact ⟨([], i), rfl⟩
  | cons r rest ih =>
    intro i hall
    obtain ⟨stem, nm, d⟩ := r
    simp only [scanFiles]
    by_cases he : hasAllowedExt nm = true
    · rw [if_pos he]
      cases d with
      | unreadable =>
        exact absurd rfl (hall (stem, nm, FileData.unreadable) (List.mem_cons_self _ _) he)
      | readable bs =>
        simp only [readFileData]
        obtain ⟨⟨ls2, fin⟩, hp⟩ := ih
          (processFile (pathString stem nm) nm (utf8DecodeIgnore bs) i).2
          (fun r hr hx => hall r (List.mem_cons_of_mem _ hr) hx)
        rw [hp]
        exact ⟨_, rfl⟩
    · rw [if_neg he]
      exact ih i (fun r hr hx => hall r (List.mem_cons_of_mem _ hr) hx)

lemma scanFiles_error_of_unreadable :
    ∀ (l : List (List String × String × FileData)) (i : Nat),
      (∃ r ∈ l, hasAllowedExt r.2.1 = true ∧ r.2.2 = FileData.unreadable) →
      scanFiles l i = Except.error () := by
  intro l
  induction l with
  | nil =>
    intro i h
    obtain ⟨r0, hr0, -⟩ := h
    exact absurd hr0 (List.not_mem_nil r0)
  | cons r rest ih =>
    intro i h
    obtain ⟨r0, hr0, he0, hu0⟩ := h
    obtain ⟨stem, nm, d⟩ := r
    simp only [scanFiles]
    rw [List.mem_cons] at hr0
    by_cases he : hasAllowedExt nm = true
    · rw [if_pos he]
      cases d with
      | unreadable => rfl
      | readable bs =>
        have hrest : ∃ r ∈ rest, hasAllowedExt r.2.1 = true ∧ r.2.2 = FileData.unreadable := by
          cases hr0 with
          | inl h0 => rw [h0] at hu0; exact absurd hu0 (by simp)
          | inr h0 => exact ⟨r0, h0, he0, hu0⟩
        simp only [readFileData]
        rw [ih _ hrest]
    · rw [if_neg he]
      apply ih
      cases hr0 with
      | inl h0 =>
        rw [h0] at he0
        exact absurd he0 he
      | inr h0 => exact ⟨r0, h0, he0, hu0⟩

/-- C6 amended: a failure to open an eligible file is not caught anywhere,
so it aborts the whole scan and no summary is printed; the scan completes
(and prints its summary) exactly when every walked file with an allowed
extension is readable. -/
theorem c6_open_error_aborts_scan (es : List Entry) :
    (∃ p, runScan es = Except.ok p) ↔
      ∀ r ∈ osWalk ["."] es, hasAllowedExt r.2.1 = true → r.2.2 ≠ FileData.unreadable := by
  constructor
  · intro hok r hr he
    by_contra hcon
    have herr := scanFiles_error_of_unreadable (osWalk ["."] es) 0 ⟨r, hr, he, hcon⟩
    obtain ⟨p, hp⟩ := hok
    unfold runScan at hp
    rw [herr] at hp
    exact Except.noConfusion hp
  · intro hall
    obtain ⟨⟨ls, n⟩, hp⟩ := scanFiles_ok_of_readable (osWalk ["."] es) 0 hall
    unfold runScan
    rw [hp]
    exact ⟨_, rfl⟩

/-- C6 counterexample: a tree with a single eligible but unreadable file
(for example permission denied on open) makes the whole scan raise: the
traversal does not complete and no summary is printed, contradicting the
claim that per-file errors always stay local. -/
theorem c6_counterexample :
    runScan [Entry.file "a.py" FileData.unreadable] = Except.error () := by
  simp [runScan, osWalk, walkAux, filesOf, scanFiles, hasAllowedExt, EXTENSIONS, readFileData]

lemma utf8DecodeAux_ignore_eq_tokens :
    ∀ (fuel : Nat) (bs : List Nat),
      utf8DecodeAux [] fuel bs = (utf8TokensAux fuel bs).filterMap id := by
  intro fuel
  induction fuel with
  | zero => intro bs; rfl
  | succ k ih =>
    intro bs
    cases bs with
    | nil => rfl
    | cons b rest =>
      rw [utf8DecodeAux, utf8TokensAux]
      rw [List.filterMap_cons]
      cases h : (utf8Step b rest).1 with
      | some cp => simp [h, ih]
      | none => simp [h, ih]

lemma utf8DecodeAux_replace_eq_tokens :
    ∀ (fuel : Nat) (bs : List Nat),
      utf8DecodeAux [replacementChar] fuel bs =
        (utf8TokensAux fuel bs).map (fun o => o.getD replacementChar) := by
  intro fuel
  induction fuel with
  | zero => intro bs; rfl
  | succ k ih =>
    intro bs
    cases bs with
    | nil => rfl
    | cons b rest =>
      rw [utf8DecodeAux, utf8TokensAux]
      rw [List.map_cons]
      cases h : (utf8Step b rest).1 with
      | some cp => simp [h, ih]
      | none => simp [h, ih]

/-- C7 amended: reading a readable file never raises a decode error (it
always yields text), but undecodable byte sequences are dropped from the
decoded content (errors='ignore'), not substituted: the content is the
token stream with the error positions removed, whereas the substitution
described by the spec would put U+FFFD at exactly those positions. -/
theorem c7_decode_drops_invalid_bytes (bs : List Nat) :
    readFileData (FileData.readable bs) = Except.ok ((utf8Tokens bs).filterMap id) ∧
      utf8DecodeReplaceSpec bs = (utf8Tokens bs).map (fun o => o.getD replacementChar) := by
  constructor
  · rw [readFileData]
    rw [utf8DecodeIgnore, utf8DecodeWith, utf8Tokens, utf8DecodeAux_ignore_eq_tokens]
  · rw [utf8DecodeReplaceSpec, utf8DecodeWith, utf8Tokens, utf8DecodeAux_replace_eq_tokens]

/-- C7 counterexample: for the bytes 0x61 0xFF 0x62 the script's decoded
content drops the invalid byte (giving "ab"), while the substitution the
claim describes would give "a", U+FFFD, "b"; the two contents differ, so
invalid sequences are not substituted in the content the scan checks. -/
theorem c7_counterexample :
    utf8DecodeIgnore [97, 255, 98] = ['a', 'b'] ∧
      utf8DecodeReplaceSpec [97, 255, 98] = ['a', replacementChar, 'b'] ∧
      utf8DecodeIgnore [97, 255, 98] ≠ utf8DecodeReplaceSpec [97, 255, 98] := by
  refine ⟨by decide, by decide, ?_⟩
  decide

lemma dropWhile_replicate_append (p : Char → Bool) (a : Char) (hp : p a = true) :
    ∀ (n : Nat) (l : List Char), (List.replicate n a ++ l).dropWhile p = l.dropWhile p := by
  intro n
  induction n with
  | zero => intro l; rw [List.replicate_zero, List.nil_append]
  | succ k ih =>
    intro l
    rw [List.replicate_succ, List.cons_append, List.dropWhile_cons]
    rw [hp]
    simp only [if_true]
    exact ih l

lemma dropWhile_cons_neg (p : Char → Bool) (x : Char) (l : List Char) (h : p x = false) :
    (x :: l).dropWhile p = x :: l := by
  rw [List.dropWhile_cons, h]
  simp

lemma takeWhile_clean_append (p : Char → Bool) :
    ∀ (body : List Char), (∀ c ∈ body, p c = true) →
      ∀ (q : Char) (rest : List Char), p q = false →
        (body ++ q :: rest).takeWhile p = body ∧ (body ++ q :: rest).dropWhile p = q :: rest := by
  intro body
  induction body with
  | nil =>
    intro _ q rest hq
    constructor
    · simp [List.takeWhile_cons, hq]
    · simp [List.dropWhile_cons, hq]
  | cons c cs ih =>
    intro hall q rest hq
    have hc : p c = true := hall c (List.mem_cons_self c cs)
    obtain ⟨ht, hd⟩ := ih (fun d hd => hall d (List.mem_cons_of_mem c hd)) q rest hq
    constructor
    · rw [List.cons_append, List.takeWhile_cons, hc]
      simp [ht]
    · rw [List.cons_append, List.dropWhile_cons, hc]
      simp [hd]

lemma spaces_run (l : List Char) :
    l.takeWhile (fun c => c == ' ') =
      List.replicate (l.takeWhile (fun c => c == ' ')).length ' ' := by
  apply List.eq_replicate_iff.mpr
  refine ⟨rfl, ?_⟩
  intro b hb
  have hb2 := List.mem_takeWhile_imp hb
  simpa using hb2

lemma quote_not_space (c : Char) (h : isQuoteChar c = true) : (c == ' ') = false := by
  unfold isQuoteChar at h
  rw [Bool.or_eq_true] at h
  cases h with
  | inl h => rw [eq_of_beq h]; decide
  | inr h => rw [eq_of_beq h]; decide

lemma quote_not_body (c : Char) (h : isQuoteChar c = true) : isBodyChar c = false := by
  unfold isQuoteChar at h
  rw [Bool.or_eq_true] at h
  cases h with
  | inl h => rw [eq_of_beq h]; decide
  | inr h => rw [eq_of_beq h]; decide

lemma matchTail_iff (t : List Char) :
    matchTail t = true ↔
      ∃ (n1 n2 : Nat) (q1 q2 : Char) (body rest : List Char),
        isQuoteChar q1 = true ∧ isQuoteChar q2 = true ∧
        (∀ c ∈ body, isBodyChar c = true) ∧ 10 ≤ body.length ∧
        t = List.replicate n1 ' ' ++ '=' ::
          (List.replicate n2 ' ' ++ q1 :: (body ++ q2 :: rest)) := by
  constructor
  · intro h
    unfold matchTail at h
    cases hd1 : t.dropWhile (fun c => c == ' ') with
    | nil => rw [hd1] at h; simp [credEatEq] at h
    | cons x t1 =>
      rw [hd1] at h
      simp only [credEatEq, Bool.and_eq_true] at h
      obtain ⟨hx, h⟩ := h
      cases hd2 : t1.dropWhile (fun c => c == ' ') with
      | nil => rw [hd2] at h; simp [credEatQuote] at h
      | cons q t2 =>
        rw [hd2] at h
        simp only [credEatQuote, Bool.and_eq_true] at h
        obtain ⟨⟨hq, hlen⟩, h⟩ := h
        cases hd3 : t2.dropWhile isBodyChar with
        | nil => rw [hd3] at h; simp [credEatClose] at h
        | cons q2 r2 =>
          rw [hd3] at h
          simp only [credEatClose] at h
          have h1 : t = t.takeWhile (fun c => c == ' ') ++ ('=' :: t1) := by
            conv_lhs => rw [← List.takeWhile_append_dropWhile (p := fun c => c == ' ') (l := t)]
            rw [hd1, eq_of_beq hx]
          have h2 : t1 = t1.takeWhile (fun c => c == ' ') ++ (q :: t2) := by
            conv_lhs => rw [← List.takeWhile_append_dropWhile (p := fun c => c == ' ') (l := t1)]
            rw [hd2]
          have h3 : t2 = t2.takeWhile isBodyChar ++ (q2 :: r2) := by
            conv_lhs => rw [← List.takeWhile_append_dropWhile (p := isBodyChar) (l := t2)]
            rw [hd3]
          refine ⟨(t.takeWhile (fun c => c == ' ')).length,
            (t1.takeWhile (fun c => c == ' ')).length, q, q2,
            t2.takeWhile isBodyChar, r2, hq, h, ?_, of_decide_eq_true hlen, ?_⟩
          · intro c hc; exact List.mem_takeWhile_imp hc
          · rw [← spaces_run t, ← spaces_run t1, ← h3, ← h2]
            exact h1
  · rintro ⟨n1, n2, q1, q2, body, rest, hq1, hq2, hbody, hlen, rfl⟩
    unfold matchTail
    rw [dropWhile_replicate_append (fun c => c == ' ') ' ' (by decide) n1]
    rw [dropWhile_cons_neg (fun c => c == ' ') '='
      (List.replicate n2 ' ' ++ q1 :: (body ++ q2 :: rest)) (by decide)]
    simp only [credEatEq, Bool.and_eq_true]
    refine ⟨by decide, ?_⟩
    rw [dropWhile_replicate_append (fun c => c == ' ') ' ' (by decide) n2]
    rw [dropWhile_cons_neg (fun c => c == ' ') q1 (body ++ q2 :: rest)
      (quote_not_space q1 hq1)]
    simp only [credEatQuote, Bool.and_eq_true]
    obtain ⟨htake, hdrop⟩ :=
      takeWhile_clean_append isBodyChar body hbody q2 rest (quote_not_body q2 hq2)
    refine ⟨⟨hq1, ?_⟩, ?_⟩
    · rw [htake]; exact decide_eq_true hlen
    · rw [hdrop]; simp [credEatClose, hq2]

lemma matchHere_iff (t : List Char) :
    matchHere t = true ↔
      ∃ (nm occ t2 : List Char), nm ∈ credNames ∧ occ.map lowerChar = nm ∧
        t = occ ++ t2 ∧ matchTail t2 = true := by
  unfold matchHere
  rw [List.any_eq_true]
  constructor
  · rintro ⟨nm, hnm, hb⟩
    rw [Bool.and_eq_true] at hb
    obtain ⟨hpref, htail⟩ := hb
    unfold nameHitAt at hpref
    have hp := (isPrefixOf_eq_true nm (t.map lowerChar)).mp hpref
    refine ⟨nm, t.take nm.length, t.drop nm.length, hnm, ?_,
      (List.take_append_drop _ t).symm, htail⟩
    rw [List.map_take]
    exact (List.prefix_iff_eq_take.mp hp).symm
  · rintro ⟨nm, occ, t2, hnm, hmap, rfl, htail⟩
    refine ⟨nm, hnm, ?_⟩
    rw [Bool.and_eq_true]
    have hlen : occ.length = nm.length := by rw [← hmap, List.length_map]
    constructor
    · unfold nameHitAt
      apply (isPrefixOf_eq_true _ _).mpr
      rw [List.map_append, ← hmap]
      exact List.prefix_append _ _
    · rw [← hlen, List.drop_left]
      exact htail

/-- C5 amended: the credential pattern fires on exactly the contents with a
substring made of a listed credential name (case-insensitive, in the
Unicode-aware sense of re.IGNORECASE captured by `lowerChar`), zero or
more spaces (only the space character, not arbitrary whitespace), an equal
sign, zero or more spaces, a quote, ten or more characters of the
IGNORECASE closure of [a-zA-Z0-9_-], and a closing quote that may be
either kind, independent of the opening one (a mismatched closing quote
still yields a finding). -/
theorem c5_cred_pattern_characterization (s : List Char) :
    credSearch s = true ↔ IsCredOccurrence s := by
  unfold credSearch
  rw [List.any_eq_true]
  constructor
  · rintro ⟨t, ht, hmh⟩
    rw [List.mem_tails] at ht
    obtain ⟨pre, hpre⟩ := ht
    obtain ⟨nm, occ, t2, hnm, hmap, rfl, htail⟩ := (matchHere_iff t).mp hmh
    obtain ⟨n1, n2, q1, q2, body, rest, hq1, hq2, hbody, hlen, rfl⟩ :=
      (matchTail_iff t2).mp htail
    exact ⟨pre, occ, nm, body, rest, n1, n2, q1, q2, hnm, hmap, hq1, hq2, hbody, hlen,
      hpre.symm⟩
  · rintro ⟨pre, occ, nm, body, rest, n1, n2, q1, q2, hnm, hmap, hq1, hq2, hbody, hlen, rfl⟩
    refine ⟨occ ++ (List.replicate n1 ' ' ++ '=' ::
      (List.replicate n2 ' ' ++ q1 :: (body ++ q2 :: rest))), ?_, ?_⟩
    · rw [List.mem_tails]
      exact ⟨pre, rfl⟩
    · apply (matchHere_iff _).mpr
      refine ⟨nm, occ, _, hnm, hmap, rfl, ?_⟩
      apply (matchTail_iff _).mpr
      exact ⟨n1, n2, q1, q2, body, rest, hq1, hq2, hbody, hlen, rfl⟩

/-- C5 counterexample: the content apikey = "abcdefghij' (an opening double
quote closed by a single quote) does produce a credential finding in the
script, while the matcher the spec's words describe rejects it; conversely
a tab before the equal sign defeats the script's pattern while the spec's
optional-whitespace wording accepts it. -/
theorem c5_counterexample :
    credSearch ("apikey = \"abcdefghij".data ++ [Char.ofNat 39]) = true ∧
      specCredSearch ("apikey = \"abcdefghij".data ++ [Char.ofNat 39]) = false ∧
      credSearch ("apikey\t= \"abcdefghij\"").data = false ∧
      specCredSearch ("apikey\t= \"abcdefghij\"").data = true :=
  ⟨by decide, by decide, by decide, by decide⟩

lemma credSearch_unicode_long_s :
    credSearch ("ſecret = \"abcdefghij\"").data = true := by decide

lemma credSearch_unicode_dotted_capital_I :
    credSearch ("apİkey = \"abcdefghij\"").data = true := by decide

lemma credSearch_unicode_kelvin_body :
    credSearch ("apikey = \"abcdefghiK\"").data = true := by decide
